import Mathlib

/-!
Verification of the Marbles bounty pipeline (`src/marblesbounty.py`).

The development shallowly embeds the pure core of the program:
text normalization (`normalize_ocr_text`), fuzzy keyword matching
(`fuzzy_match_keyword`, `fuzzy_match_any`), the screenshot parser
(`parse_marbles_screenshot`), the screenshot merger
(`merge_screenshot_data`), the bounty calculator (`calculate_bounty`),
the ledger apply/revert operations (`update_bounty_board` and the revert
loop of `PlayerRemovalView.done_editing`), and the correction workflow
(`done_editing`).

Modelling conventions:
- Python strings are Lean `String`s; character-level operations
  (`str.lower`, `str.upper`, `str.strip`, `str.split`, regex character
  classes) are modelled on `List Char` with ASCII semantics, matching
  the ASCII regex classes used by the source.
- Python `int` is `Int`; the float expression in `calculate_bounty`
  (`total_players / 2` and the subsequent product) is modelled with
  exact rational arithmetic `ℚ`, and Python's `int()` conversion
  (truncation toward zero) is `ratTrunc`, using `Int.tdiv`.
- The bounty board (a Python dict from player name to int) is a total
  function `String → Option Int`; `none` means the key is absent.
-/

/-! ## Character-level helpers for the OCR text model -/

/-- ASCII word character, the `[A-Za-z0-9_]` class used by the source's
regexes (`[^\w_]`, `^[A-Za-z][A-Za-z0-9_]*$`, `[A-Za-z][A-Za-z0-9_]{2,}`). -/
def isWordChar (c : Char) : Bool :=
  c.isAlpha || c.isDigit || c == '_'

/-- `str.lower()` on ASCII text: lowercase every character. -/
def strLower (s : String) : String :=
  String.mk (s.data.map Char.toLower)

/-- `str.upper()` on ASCII text: uppercase every character. -/
def strUpper (s : String) : String :=
  String.mk (s.data.map Char.toUpper)

/-- Split a character list at every character satisfying `p`,
keeping empty segments (the semantics of Python's `str.split(sep)`). -/
def splitOnPred (p : Char → Bool) : List Char → List (List Char)
  | [] => [[]]
  | c :: rest =>
    match splitOnPred p rest with
    | [] => [[]]
    | h :: t => if p c then [] :: h :: t else (c :: h) :: t

/-- `str.strip()`: drop whitespace from both ends. -/
def trimChars (l : List Char) : List Char :=
  ((l.dropWhile Char.isWhitespace).reverse.dropWhile Char.isWhitespace).reverse

/-- `line.split()` with no separator: split on whitespace runs,
discarding empty tokens. -/
def splitWs (line : String) : List String :=
  ((splitOnPred Char.isWhitespace line.data).filter (fun l => l ≠ [])).map String.mk

/-! ## Text Normalizer (`normalize_ocr_text`, lines 85-108) -/

/-- The substitution `re.sub(r'[l1]', 'i', text)`. -/
def sub_il (c : Char) : Char :=
  if c = 'l' ∨ c = '1' then 'i' else c

/-- The substitution `re.sub(r'0', 'o', text)`. -/
def sub_o (c : Char) : Char :=
  if c = '0' then 'o' else c

/-- The substitution `re.sub(r'5', 's', text)`. -/
def sub_s (c : Char) : Char :=
  if c = '5' then 's' else c

/-- `normalize_ocr_text`: lowercase, then collapse the OCR confusion
classes i/l/1 → i, 0 → o, 5 → s. -/
def normalize_ocr_text (text : String) : String :=
  String.mk ((((text.data.map Char.toLower).map sub_il).map sub_o).map sub_s)

/-! ## Fuzzy Matcher (`fuzzy_match_keyword`, `fuzzy_match_any`, lines 111-139) -/

/-- Boolean test that `needle` is an initial segment of `hay`. -/
def isPrefixList : List Char → List Char → Bool
  | [], _ => true
  | _ :: _, [] => false
  | a :: as, b :: bs => a == b && isPrefixList as bs

/-- Boolean test that `needle` occurs contiguously inside `hay`
(the semantics of Python's `in` on strings). -/
def isInfixList (needle : List Char) : List Char → Bool
  | [] => needle.isEmpty
  | hay@(_ :: t) => isPrefixList needle hay || isInfixList needle t

/-- `fuzzy_match_keyword`: normalized keyword occurs in normalized text. -/
def fuzzy_match_keyword (text keyword : String) : Bool :=
  isInfixList (normalize_ocr_text keyword).data (normalize_ocr_text text).data

/-- `fuzzy_match_any`: some keyword of the list fuzzy-matches. -/
def fuzzy_match_any (text : String) (keywords : List String) : Bool :=
  keywords.any (fun kw => fuzzy_match_keyword text kw)

/-! ## Helper lemmas about the normalizer -/

theorem toLower_def (d : Char) :
    d.toLower = if d.toNat ≥ 65 ∧ d.toNat ≤ 90 then Char.ofNat (d.toNat + 32) else d := rfl

theorem toNat_ofNat_valid {n : Nat} (h : n.isValidChar) : (Char.ofNat n).toNat = n := by
  rw [Char.ofNat, dif_pos h]; rfl

theorem toLower_idem (c : Char) : c.toLower.toLower = c.toLower := by
  by_cases h : c.toNat ≥ 65 ∧ c.toNat ≤ 90
  · have hv : (c.toNat + 32).isValidChar := Or.inl (by omega)
    have ht := toNat_ofNat_valid hv
    rw [toLower_def c, if_pos h, toLower_def, ht, if_neg (by omega)]
  · rw [toLower_def c, if_neg h, toLower_def c, if_neg h]

/-- The per-character action of `normalize_ocr_text`. -/
def normChar (c : Char) : Char :=
  sub_s (sub_o (sub_il c.toLower))

theorem normalize_eq_map_normChar (s : String) :
    normalize_ocr_text s = String.mk (s.data.map normChar) := by
  simp only [normalize_ocr_text, List.map_map, Function.comp_def]
  rfl

theorem normChar_idem (c : Char) : normChar (normChar c) = normChar c := by
  have hlow := toLower_idem c
  by_cases h1 : c.toLower = 'l' ∨ c.toLower = '1'
  · have h : normChar c = 'i' := by simp [normChar, sub_il, sub_o, sub_s, h1]
    rw [h]; rfl
  · by_cases h0 : c.toLower = '0'
    · have h : normChar c = 'o' := by
        simp [normChar, sub_il, sub_o, sub_s, h1, h0]
      rw [h]; rfl
    · by_cases h5 : c.toLower = '5'
      · have h : normChar c = 's' := by
          simp [normChar, sub_il, sub_o, sub_s, h1, h0, h5]
        rw [h]; rfl
      · have h : normChar c = c.toLower := by
          simp [normChar, sub_il, sub_o, sub_s, h1, h0, h5]
        rw [h, normChar, hlow]
        simp [sub_il, sub_o, sub_s, h1, h0, h5]

/-! ## Data model: a parsed screenshot / ranking -/

/-- The dict `{'total_players': ..., 'results': [(name, position), ...]}`
produced by the parser and the merger. -/
structure ParsedData where
  total_players : Int
  results : List (String × Int)
deriving DecidableEq, Repr

/-- The Ranking invariant: `total_players` counts the entries, positions
are contiguous from 1 in list order, and names are unique after
case-folding. -/
def RankingInv (d : ParsedData) : Prop :=
  d.total_players = (d.results.length : Int) ∧
  d.results.map Prod.snd = (List.range d.results.length).map (fun i => Int.ofNat i + 1) ∧
  (d.results.map (fun e => strLower e.1)).Nodup

instance : DecidablePred RankingInv := fun d => by
  unfold RankingInv; infer_instance

/-! ## Screenshot Parser (`parse_marbles_screenshot`, lines 258-376) -/

/-- `clean_player_name`: keep word characters, whitespace and hyphens,
then collapse internal whitespace and strip. -/
def clean_player_name (name : String) : String :=
  let kept := name.data.filter (fun c => isWordChar c || c.isWhitespace || c == '-')
  let words := (splitOnPred Char.isWhitespace kept).filter (fun l => l ≠ [])
  String.intercalate " " (words.map String.mk)

/-- The header keywords of the parser. -/
def header_keywords : List String :=
  ["place", "player", "time", "points", "damage", "wins", "races", "elimination", "name"]

/-- The fixed ignore-list of known OCR artifacts. -/
def ignore_words : List String :=
  ["even", "dltc", "def", "juaz", "dne"]

/-- `token_clean = re.sub(r'[^\w_]', '', token)`. -/
def token_clean (t : String) : String :=
  String.mk (t.data.filter isWordChar)

/-- The full-match test `re.match(r'^[A-Za-z][A-Za-z0-9_]*$', s)`. -/
def matches_username (s : String) : Bool :=
  match s.data with
  | [] => false
  | c :: rest => c.isAlpha && rest.all isWordChar

/-- The token loop of the strict pass: first token that survives the
ordinal / header / ignore-word filters and looks like a username. -/
def find_player_name : List String → Option String
  | [] => none
  | token :: rest =>
    let tc := token_clean token
    if (["1ST", "2ND", "3RD", "DNF", "IST"] : List String).contains (strUpper token) then
      find_player_name rest
    else if fuzzy_match_any tc header_keywords then
      find_player_name rest
    else if ignore_words.contains (strLower tc) then
      find_player_name rest
    else if matches_username tc && decide (3 ≤ tc.length) then
      some (clean_player_name tc)
    else
      find_player_name rest

/-- Line splitting and filtering: strip each line, keep lines of length
greater than 2 (`if line and len(line) > 2`). -/
def clean_lines (text : String) : List String :=
  ((splitOnPred (fun c => c == '\n') text.data).map (fun l => String.mk (trimChars l))).filter
    (fun s => !s.isEmpty && decide (2 < s.length))

/-- One line of the strict pass, acting on the state
(accepted results, current position). -/
def strict_process_line (st : List (String × Int) × Int) (line : String) :
    List (String × Int) × Int :=
  if fuzzy_match_any line ["place", "player"] then st
  else if fuzzy_match_any line header_keywords && !(line.data.any Char.isDigit) then st
  else
    match find_player_name (splitWs line) with
    | none => st
    | some pname =>
      if !pname.isEmpty && decide (3 ≤ pname.length) then
        if st.1.any (fun p => strLower p.1 == strLower pname) then st
        else (st.1 ++ [(pname, st.2 + 1)], st.2 + 1)
      else st

/-- The scan of `re.findall(r'[A-Za-z][A-Za-z0-9_]{2,}', line)`, with a
fuel argument for structural recursion; every step consumes at least one
character, so fuel equal to the list length is never exhausted. -/
def findallAggrFuel : Nat → List Char → List String
  | 0, _ => []
  | _, [] => []
  | fuel + 1, c :: rest =>
    if c.isAlpha then
      let run := rest.takeWhile isWordChar
      if 2 ≤ run.length then
        String.mk (c :: run) :: findallAggrFuel fuel (rest.drop run.length)
      else findallAggrFuel fuel rest
    else findallAggrFuel fuel rest

/-- `re.findall(r'[A-Za-z][A-Za-z0-9_]{2,}', line)`: leftmost
non-overlapping matches of a letter followed by at least two word
characters, each match greedy. -/
def findallAggr (l : List Char) : List String :=
  findallAggrFuel l.length l

/-- The inner loop of the aggressive pass: accept the first candidate
of the line that survives the filters (the loop `break`s after one). -/
def aggr_scan (st : List (String × Int) × Int) : List String → List (String × Int) × Int
  | [] => st
  | name :: rest =>
    if fuzzy_match_any name header_keywords then aggr_scan st rest
    else if ignore_words.contains (strLower name) then aggr_scan st rest
    else if st.1.any (fun p => strLower p.1 == strLower name) then aggr_scan st rest
    else (st.1 ++ [(name, st.2 + 1)], st.2 + 1)

/-- One line of the aggressive fallback pass. -/
def aggr_process_line (st : List (String × Int) × Int) (line : String) :
    List (String × Int) × Int :=
  if fuzzy_match_any line ["place", "player"] then st
  else aggr_scan st (findallAggr line.data)

/-- The entry list accepted by the parser: strict pass over the cleaned
lines; if it accepts fewer than two entries, discard them and rerun in
aggressive mode. -/
def parse_results (text : String) : List (String × Int) :=
  let cls := clean_lines text
  let strict := cls.foldl strict_process_line ([], 0)
  if strict.1.length < 2 then (cls.foldl aggr_process_line ([], 0)).1 else strict.1

/-- `parse_marbles_screenshot`: report absence (`none`) when no entries
result after both passes. -/
def parse_marbles_screenshot (text : String) : Option ParsedData :=
  if parse_results text = [] then none
  else some { total_players := ((parse_results text).length : Int), results := parse_results text }

/-! ## Screenshot Merger (`merge_screenshot_data`, lines 146-198) -/

/-- Processing of one entry of a subsequent screenshot: skip
case-insensitive overlaps, otherwise append at the next position. -/
def mergeEntry (acc : List (String × Int) × Int) (e : String × Int) :
    List (String × Int) × Int :=
  if acc.1.any (fun m => strLower m.1 == strLower e.1) then acc
  else (acc.1 ++ [(e.1, acc.2 + 1)], acc.2 + 1)

/-- `merge_screenshot_data`. A single screenshot is returned unchanged.
(The source raises `IndexError` on an empty input list; that case is
represented by a junk value and is outside every claim's scope.) -/
def merge_screenshot_data (l : List ParsedData) : ParsedData :=
  match l with
  | [] => { total_players := 0, results := [] }
  | [single] => single
  | first :: rest =>
    let init := (first.results, (first.results.length : Int))
    let r := rest.foldl (fun acc pd => pd.results.foldl mergeEntry acc) init
    { total_players := (r.1.length : Int), results := r.1 }

/-! ## Bounty Calculator (`calculate_bounty`, lines 382-403) -/

/-- `WIN_BONUS = 200`. -/
def WIN_BONUS : Int := 200

/-- `PLACEMENT_FACTOR = 20`. -/
def PLACEMENT_FACTOR : Int := 20

/-- Python's `int()` on a rational: truncation toward zero. -/
def ratTrunc (q : ℚ) : Int :=
  Int.tdiv q.num (q.den : Int)

/-- `placement_score = ((total_players - position + 1) - (total_players / 2)) * PLACEMENT_FACTOR`,
with `/` the exact (real-valued) division performed by Python on these
operands. -/
def placement_score (position total_players : Int) : ℚ :=
  (((total_players : ℚ) - (position : ℚ) + 1) - (total_players : ℚ) / 2) * (PLACEMENT_FACTOR : ℚ)

/-- `calculate_bounty`. -/
def calculate_bounty (position : Int) (total_players : Int) (is_winner : Bool) : Int :=
  (if is_winner then WIN_BONUS else 0) + ratTrunc (placement_score position total_players)

/-! ## Bounty Ledger (`update_bounty_board`, lines 405-424, and the
revert loop of `PlayerRemovalView.done_editing`, lines 770-781) -/

/-- The bounty board: player name to cumulative score, `none` = absent. -/
def Board : Type := String → Option Int

/-- A fold step that rewrites the board at exactly one key. -/
def pointStep (t : (String × Int) → Option Int → Option Int) (b : Board) (e : String × Int) :
    Board :=
  fun n => if n = e.1 then t e (b e.1) else b n

/-- Applying one entry: add its bounty to the player's total, creating
the player if absent (`bounty_board[player_name] += bounty` / `= bounty`). -/
def applyB (total : Int) (e : String × Int) (o : Option Int) : Option Int :=
  some (o.getD 0 + calculate_bounty e.2 total (e.2 == 1))

/-- Reverting one entry: if the player is a key (exact match), subtract
the recomputed bounty and delete the player when the total becomes 0;
otherwise leave the board unchanged. -/
def revertB (total : Int) (e : String × Int) (o : Option Int) : Option Int :=
  match o with
  | none => none
  | some v =>
    if v - calculate_bounty e.2 total (e.2 == 1) = 0 then none
    else some (v - calculate_bounty e.2 total (e.2 == 1))

/-- `update_bounty_board`: apply every entry of the parsed data. -/
def update_bounty_board (b : Board) (d : ParsedData) : Board :=
  d.results.foldl (pointStep (applyB d.total_players)) b

/-- The revert loop of `PlayerRemovalView.done_editing`. -/
def revert_bounty_board (b : Board) (d : ParsedData) : Board :=
  d.results.foldl (pointStep (revertB d.total_players)) b

/-! ## Correction Workflow (`PlayerRemovalView.done_editing`, lines 759-822) -/

/-- `done_editing`, modelled on the state it affects: the board and the
last-game slot. With an empty removal list the handler returns early and
changes nothing; otherwise it reverts the stored game, filters out the
removed names (exact membership), renumbers from 1, and re-applies. -/
def done_editing (b : Board) (game_data : ParsedData) (removed_players : List String) :
    Board × ParsedData :=
  if removed_players = [] then (b, game_data)
  else
    let b1 := revert_bounty_board b game_data
    let filtered := game_data.results.filter (fun e => !(removed_players.contains e.1))
    let new_results := filtered.enum.map (fun ie => (ie.2.1, (ie.1 : Int) + 1))
    let new_game_data : ParsedData := ⟨(new_results.length : Int), new_results⟩
    (update_bounty_board b1 new_game_data, new_game_data)

/-- The Correction Workflow as the specification words it (spec §4.7):
always revert the last ranking, filter out the removed names, renumber
contiguously from 1, and apply the result, which also becomes the new
last ranking. -/
def spec_correct (b : Board) (game_data : ParsedData) (removed_players : List String) :
    Board × ParsedData :=
  let filtered := game_data.results.filter (fun e => !(removed_players.contains e.1))
  let renumbered := filtered.enum.map (fun ie => (ie.2.1, (ie.1 : Int) + 1))
  let new_game_data : ParsedData := ⟨(renumbered.length : Int), renumbered⟩
  (update_bounty_board (revert_bounty_board b game_data) new_game_data, new_game_data)

/-! ## Concrete fixtures used by witnesses and counterexamples -/

/-- The empty board. -/
def bEmpty : Board := fun _ => none

/-- A board holding exactly the player "Alice" (capital A) at 5. -/
def bAlice5 : Board := fun n => if n = "Alice" then some 5 else none

/-- A board holding "alice" at 0 and "bob" at 7. -/
def bZeroAlice : Board := fun n =>
  if n = "alice" then some 0 else if n = "bob" then some 7 else none

/-- A one-entry ranking. -/
def rAliceOnly : ParsedData := ⟨1, [("alice", 1)]⟩

/-- The first example ranking of the merge claim. -/
def rAliceBob : ParsedData := ⟨2, [("alice", 1), ("bob", 2)]⟩

/-- The second example ranking of the merge claim. -/
def rBobCarol : ParsedData := ⟨2, [("bob", 1), ("carol", 2)]⟩

/-! ## Arithmetic facts about the bounty calculator -/

theorem ratTrunc_intCast (n : Int) : ratTrunc ((n : Int) : ℚ) = n := by
  simp [ratTrunc, Rat.num_intCast, Rat.den_intCast, Int.tdiv_one]

theorem placement_score_eq (p N : Int) :
    placement_score p N = ((20 * (N - p + 1) - 10 * N : Int) : ℚ) := by
  unfold placement_score PLACEMENT_FACTOR
  push_cast
  ring

theorem calculate_bounty_eq (p N : Int) (w : Bool) :
    calculate_bounty p N w = (if w then 200 else 0) + (20 * (N - p + 1) - 10 * N) := by
  unfold calculate_bounty WIN_BONUS
  rw [placement_score_eq, ratTrunc_intCast]

/-! ## Claim theorems -/

/-- C1: for `N ≥ 1`, `1 ≤ p ≤ N` and any winner flag,
`calculate_bounty` equals the win bonus plus the toward-zero truncation
of `((N - p + 1) - N/2) * 20` computed with exact division; the
placement product is exactly the integer `20*(N - p + 1) - 10*N`, so the
result has the closed form `(200 if winner else 0) + 20*(N - p + 1) - 10*N`
and truncating before or after adding the win bonus agree. -/
theorem calculate_bounty_closed_form (N p : Int) (w : Bool)
    (hN : 1 ≤ N) (hp : 1 ≤ p) (hpN : p ≤ N) :
    calculate_bounty p N w
        = (if w then (200 : Int) else 0) + ratTrunc (placement_score p N) ∧
    placement_score p N = ((20 * (N - p + 1) - 10 * N : Int) : ℚ) ∧
    calculate_bounty p N w = (if w then (200 : Int) else 0) + 20 * (N - p + 1) - 10 * N ∧
    ratTrunc ((if w then (200 : ℚ) else 0) + placement_score p N)
        = (if w then (200 : Int) else 0) + ratTrunc (placement_score p N) := by
  refine ⟨rfl, placement_score_eq p N, ?_, ?_⟩
  · rw [calculate_bounty_eq]
    ring
  · rw [placement_score_eq]
    have hcast : (if w then (200 : ℚ) else 0) = (((if w then (200 : Int) else 0) : Int) : ℚ) := by
      cases w <;> simp
    rw [hcast, ratTrunc_intCast, ← Int.cast_add, ratTrunc_intCast]

/-- Witness for C1 at `N = 10`, `p = 1`, winner: the bounty is `300`. -/
theorem calculate_bounty_closed_form_witness :
    (1 ≤ (10 : Int)) ∧ (1 ≤ (1 : Int)) ∧ ((1 : Int) ≤ 10) ∧
    calculate_bounty 1 10 true = (if true then (200 : Int) else 0) + 20 * (10 - 1 + 1) - 10 * 10 ∧
    calculate_bounty 1 10 true = 300 := by
  refine ⟨by decide, by decide, by decide, ?_⟩
  have h := (calculate_bounty_closed_form 10 1 true (by decide) (by decide) (by decide)).2.2.1
  refine ⟨h, ?_⟩
  rw [h]
  decide

theorem map_normChar_idem : ∀ l : List Char, (l.map normChar).map normChar = l.map normChar
  | [] => rfl
  | c :: t => by
    rw [List.map_cons, List.map_cons, normChar_idem c, map_normChar_idem t]

/-- C9: normalization is idempotent. -/
theorem normalize_ocr_text_idempotent (x : String) :
    normalize_ocr_text (normalize_ocr_text x) = normalize_ocr_text x := by
  rw [normalize_eq_map_normChar x, normalize_eq_map_normChar]
  exact congrArg String.mk (map_normChar_idem x.data)

theorem isPrefixList_eq_true_iff (as : List Char) : ∀ bs : List Char,
    isPrefixList as bs = true ↔ ∃ t, bs = as ++ t := by
  induction as with
  | nil =>
    intro bs
    simp [isPrefixList]
  | cons a as ih =>
    intro bs
    cases bs with
    | nil =>
      simp [isPrefixList]
    | cons b bs =>
      rw [isPrefixList, Bool.and_eq_true, beq_iff_eq, ih bs]
      constructor
      · rintro ⟨rfl, t, rfl⟩
        exact ⟨t, rfl⟩
      · rintro ⟨t, ht⟩
        rw [List.cons_append] at ht
        injection ht with h1 h2
        exact ⟨h1.symm, t, h2⟩

theorem isInfixList_eq_true_iff (n : List Char) : ∀ hay : List Char,
    isInfixList n hay = true ↔ ∃ s t, hay = s ++ n ++ t := by
  intro hay
  induction hay with
  | nil =>
    rw [isInfixList, List.isEmpty_iff]
    constructor
    · rintro rfl
      exact ⟨[], [], rfl⟩
    · rintro ⟨s, t, ht⟩
      rcases List.append_eq_nil.mp ht.symm with ⟨h1, -⟩
      exact (List.append_eq_nil.mp h1).2
  | cons c cs ih =>
    rw [isInfixList, Bool.or_eq_true, isPrefixList_eq_true_iff, ih]
    constructor
    · rintro (⟨t, ht⟩ | ⟨s, t, ht⟩)
      · exact ⟨[], t, by simpa using ht⟩
      · exact ⟨c :: s, t, by simp [ht]⟩
    · rintro ⟨s, t, ht⟩
      cases s with
      | nil =>
        exact Or.inl ⟨t, by simpa using ht⟩
      | cons s0 ss =>
        rw [List.cons_append, List.cons_append] at ht
        injection ht with h1 h2
        exact Or.inr ⟨ss, t, h2⟩

/-- C7: `fuzzy_match_keyword text keyword` is true exactly when the
normalized keyword occurs as a contiguous substring of the normalized
text; in particular "Tlme"/"time" and "P0ints"/"points" match. -/
theorem fuzzy_match_keyword_substring :
    (∀ text keyword : String, fuzzy_match_keyword text keyword = true ↔
      ∃ s t, (normalize_ocr_text text).data = s ++ (normalize_ocr_text keyword).data ++ t) ∧
    fuzzy_match_keyword "Tlme" "time" = true ∧
    fuzzy_match_keyword "P0ints" "points" = true := by
  exact ⟨fun text kw => isInfixList_eq_true_iff _ _, by decide, by decide⟩

/-- C8: on the line "1ST TIME 00:12 Pl4yer0ne" the token loop skips the
ordinal "1ST" and the header-fuzzy "TIME", accepts "Pl4yer0ne", the
strict pass places it at position 1, and parsing the line as the whole
input yields exactly the ranking [("Pl4yer0ne", 1)]. -/
theorem parse_example_line :
    find_player_name (splitWs "1ST TIME 00:12 Pl4yer0ne") = some "Pl4yer0ne" ∧
    (clean_lines "1ST TIME 00:12 Pl4yer0ne").foldl strict_process_line ([], 0)
      = ([("Pl4yer0ne", 1)], 1) ∧
    parse_marbles_screenshot "1ST TIME 00:12 Pl4yer0ne"
      = some ⟨1, [("Pl4yer0ne", 1)]⟩ :=
  ⟨by decide, by decide, by decide⟩

/-- C6: the parser never returns an empty ranking: a parsed result has
at least one entry (and a positive player count), and an input on which
both passes accept nothing yields absence. -/
theorem parse_no_empty_ranking :
    (∀ text d, parse_marbles_screenshot text = some d →
      d.results ≠ [] ∧ 1 ≤ d.total_players) ∧
    parse_marbles_screenshot "@@ ::" = none := by
  constructor
  · intro text d h
    unfold parse_marbles_screenshot at h
    split at h
    · exact absurd h (by simp)
    · next hne =>
      injection h with h
      subst h
      refine ⟨hne, ?_⟩
      have hpos : 0 < (parse_results text).length := List.length_pos.mpr hne
      show (1 : Int) ≤ ((parse_results text).length : Int)
      exact_mod_cast hpos
  · decide

/-- Witness for C6 at a concrete successfully parsed input. -/
theorem parse_no_empty_ranking_witness :
    parse_marbles_screenshot "alice\nbobby\ncarol"
      = some ⟨3, [("alice", 1), ("bobby", 2), ("carol", 3)]⟩ ∧
    (⟨3, [("alice", 1), ("bobby", 2), ("carol", 3)]⟩ : ParsedData).results ≠ [] ∧
    1 ≤ (⟨3, [("alice", 1), ("bobby", 2), ("carol", 3)]⟩ : ParsedData).total_players :=
  ⟨by decide, parse_no_empty_ranking.1 "alice\nbobby\ncarol" _ (by decide)⟩

/-! ## Ledger lemmas: folds of single-key steps -/

theorem foldl_pointStep_notmem (t : (String × Int) → Option Int → Option Int) :
    ∀ (L : List (String × Int)) (b : Board) (n : String),
      (∀ e ∈ L, e.1 ≠ n) → (L.foldl (pointStep t) b) n = b n := by
  intro L
  induction L with
  | nil => intro b n _; rfl
  | cons e L ih =>
    intro b n h
    rw [List.foldl_cons, ih _ n (fun x hx => h x (List.mem_cons_of_mem e hx))]
    show (if n = e.1 then t e (b e.1) else b n) = b n
    rw [if_neg (fun hn => (h e (List.mem_cons_self e L)) hn.symm)]

theorem foldl_pointStep_mem (t : (String × Int) → Option Int → Option Int) :
    ∀ (L : List (String × Int)) (b : Board) (n : String) (p : Int),
      (n, p) ∈ L → (L.map Prod.fst).Nodup →
      (L.foldl (pointStep t) b) n = t (n, p) (b n) := by
  intro L
  induction L with
  | nil => intro b n p hmem _; cases hmem
  | cons e L ih =>
    intro b n p hmem hnd
    rw [List.map_cons, List.nodup_cons] at hnd
    rw [List.foldl_cons]
    rcases List.mem_cons.mp hmem with heq | hmem'
    · have hfst : e.1 = n := by rw [← heq]
      have hnotin : ∀ x ∈ L, x.1 ≠ n := by
        intro x hx hxn
        apply hnd.1
        rw [hfst, ← hxn]
        exact List.mem_map_of_mem Prod.fst hx
      rw [foldl_pointStep_notmem t L _ n hnotin]
      show (if n = e.1 then t e (b e.1) else b n) = t (n, p) (b n)
      rw [if_pos hfst.symm, ← heq]
    · have hne : e.1 ≠ n := by
        intro h
        exact hnd.1 (h ▸ List.mem_map_of_mem Prod.fst hmem')
      rw [ih _ n p hmem' hnd.2]
      show t (n, p) ((if n = e.1 then t e (b e.1) else b n)) = t (n, p) (b n)
      rw [if_neg (fun hn => hne hn.symm)]

/-- The case-insensitive name uniqueness of the invariant gives exact
uniqueness of the name components. -/
theorem fst_nodup_of_inv {d : ParsedData} (hinv : RankingInv d) :
    (d.results.map Prod.fst).Nodup := by
  have h := hinv.2.2
  have heq : d.results.map (fun e => strLower e.1) = (d.results.map Prod.fst).map strLower := by
    rw [List.map_map]
    rfl
  rw [heq] at h
  exact h.of_map

/-- C2: applying a ranking and immediately reverting it restores every
player's prior score, except that a player whose total lands on exactly
0 during the revert is removed from the board. -/
theorem apply_revert_roundtrip (d : ParsedData) (hinv : RankingInv d) (b : Board) (n : String) :
    revert_bounty_board (update_bounty_board b d) d n =
      if n ∈ d.results.map Prod.fst then
        (if b n = some 0 then none else b n)
      else b n := by
  have hnd := fst_nodup_of_inv hinv
  by_cases hn : n ∈ d.results.map Prod.fst
  · obtain ⟨e, he, hfst⟩ := List.mem_map.mp hn
    have hmem : (n, e.2) ∈ d.results := by
      rw [← hfst]
      exact he
    rw [if_pos hn, revert_bounty_board, update_bounty_board,
      foldl_pointStep_mem _ _ _ n e.2 hmem hnd,
      foldl_pointStep_mem _ _ _ n e.2 hmem hnd]
    cases hb : b n with
    | none =>
      simp only [applyB, revertB, hb, Option.getD_none, Option.getD_some]
      rw [if_pos (by ring)]
      simp
    | some v =>
      simp only [applyB, revertB, hb, Option.getD_some]
      have hv : v + calculate_bounty e.2 d.total_players (e.2 == 1)
          - calculate_bounty e.2 d.total_players (e.2 == 1) = v := by ring
      rw [hv]
      by_cases h0 : v = 0
      · rw [if_pos h0, if_pos (by rw [h0])]
      · rw [if_neg h0, if_neg (by simp [h0])]
  · have hnotin : ∀ e ∈ d.results, e.1 ≠ n := by
      intro e he hen
      exact hn (hen ▸ List.mem_map_of_mem Prod.fst he)
    rw [if_neg hn, revert_bounty_board, update_bounty_board,
      foldl_pointStep_notmem _ _ _ n hnotin, foldl_pointStep_notmem _ _ _ n hnotin]

/-- Witness for C2: on a board where "alice" sits at exactly 0 and "bob"
at 7, the round trip of the two-player ranking removes "alice". -/
theorem apply_revert_roundtrip_witness :
    RankingInv rAliceBob ∧
    revert_bounty_board (update_bounty_board bZeroAlice rAliceBob) rAliceBob "alice" =
      (if "alice" ∈ rAliceBob.results.map Prod.fst then
        (if bZeroAlice "alice" = some 0 then none else bZeroAlice "alice")
      else bZeroAlice "alice") :=
  ⟨by decide, apply_revert_roundtrip rAliceBob (by decide) bZeroAlice "alice"⟩

/-- C10: during revert, an entry whose player name is not an exact key
of the board is silently skipped: no entry is created for it, and a key
differing only in case is not decremented in its place. -/
theorem revert_skips_absent (b : Board) (d : ParsedData) (n : String) (p : Int)
    (hinv : RankingInv d) (hmem : (n, p) ∈ d.results) (habs : b n = none) :
    revert_bounty_board b d n = none ∧
    ∀ m, m ≠ n → strLower m = strLower n → revert_bounty_board b d m = b m := by
  have hnd := fst_nodup_of_inv hinv
  constructor
  · rw [revert_bounty_board, foldl_pointStep_mem _ _ _ n p hmem hnd, habs]
    rfl
  · intro m hmn hml
    rw [revert_bounty_board]
    apply foldl_pointStep_notmem
    intro e he hem
    apply hmn
    have he2 : e = (n, p) := by
      apply List.inj_on_of_nodup_map hinv.2.2 he hmem
      show strLower e.1 = strLower n
      rw [hem, hml]
    rw [← hem, he2]

/-- Witness for C10: reverting a ranking naming "alice" over a board
whose only key is "Alice" leaves the board unchanged. -/
theorem revert_skips_absent_witness :
    revert_bounty_board bAlice5 rAliceOnly "alice" = none ∧
    revert_bounty_board bAlice5 rAliceOnly "Alice" = bAlice5 "Alice" :=
  ⟨(revert_skips_absent bAlice5 rAliceOnly "alice" 1 (by decide) (by decide) (by decide)).1,
   (revert_skips_absent bAlice5 rAliceOnly "alice" 1 (by decide) (by decide) (by decide)).2
     "Alice" (by decide) (by decide)⟩

/-- C5 counterexample: with the last ranking [("alice", 1)] and a board
not containing "alice", correcting with the empty removal set leaves the
board untouched (the handler returns early), while the claimed
revert-then-reapply state holds "alice" at 210. -/
theorem done_editing_empty_counterexample :
    (done_editing bEmpty rAliceOnly []).1 "alice" = none ∧
    (spec_correct bEmpty rAliceOnly []).1 "alice" = some 210 ∧
    (done_editing bEmpty rAliceOnly []).1 "alice"
      ≠ (spec_correct bEmpty rAliceOnly []).1 "alice" := by
  have hcb : calculate_bounty 1 1 ((1 : Int) == 1) = 210 := by
    rw [calculate_bounty_eq]
    decide
  have h1 : (done_editing bEmpty rAliceOnly []).1 "alice" = none := rfl
  have h2 : (spec_correct bEmpty rAliceOnly []).1 "alice"
      = some (0 + calculate_bounty 1 1 ((1 : Int) == 1)) := rfl
  refine ⟨h1, ?_, ?_⟩
  · rw [h2, hcb]
    decide
  · rw [h1, h2, hcb]
    decide

/-- C5 amended: with a nonempty removal set the handler is exactly the
specified revert / filter / renumber / reapply workflow; with an empty
removal set it changes neither the board nor the stored last game (hence
a zero net effect on every total), instead of performing the cycle. -/
theorem done_editing_amended (b : Board) (gd : ParsedData) (removed : List String) :
    (removed ≠ [] → done_editing b gd removed = spec_correct b gd removed) ∧
    done_editing b gd [] = (b, gd) := by
  constructor
  · intro h
    rw [done_editing, if_neg h]
    rfl
  · rw [done_editing, if_pos rfl]

/-- Witness for C5 (amended) at a concrete board, game and removal set. -/
theorem done_editing_amended_witness :
    (["bob"] ≠ ([] : List String)) ∧
    done_editing bZeroAlice rAliceBob ["bob"] = spec_correct bZeroAlice rAliceBob ["bob"] ∧
    done_editing bZeroAlice rAliceBob [] = (bZeroAlice, rAliceBob) :=
  ⟨by decide, (done_editing_amended bZeroAlice rAliceBob ["bob"]).1 (by decide),
   (done_editing_amended bZeroAlice rAliceBob []).2⟩

/-! ## Invariant preservation for the parser and merger folds -/

/-- Invariant of the accumulation state (collected entries, position
counter) shared by the strict pass, the aggressive pass and the merger:
the counter equals the number of entries, positions are contiguous from
1, and case-folded names are distinct. -/
def StInv (st : List (String × Int) × Int) : Prop :=
  st.2 = (st.1.length : Int) ∧
  st.1.map Prod.snd = (List.range st.1.length).map (fun i => Int.ofNat i + 1) ∧
  (st.1.map (fun e => strLower e.1)).Nodup

theorem StInv_nil : StInv ([], 0) :=
  ⟨rfl, rfl, List.nodup_nil⟩

theorem StInv_append {st : List (String × Int) × Int} (h : StInv st) (name : String)
    (hnot : ¬ (st.1.any (fun p => strLower p.1 == strLower name)) = true) :
    StInv (st.1 ++ [(name, st.2 + 1)], st.2 + 1) := by
  obtain ⟨h1, h2, h3⟩ := h
  have hno : ∀ p ∈ st.1, strLower p.1 ≠ strLower name := by
    intro p hp heq
    exact hnot (List.any_eq_true.mpr ⟨p, hp, beq_iff_eq.mpr heq⟩)
  refine ⟨?_, ?_, ?_⟩
  · show st.2 + 1 = ((st.1 ++ [(name, st.2 + 1)]).length : Int)
    rw [List.length_append, List.length_singleton]
    push_cast
    omega
  · show (st.1 ++ [(name, st.2 + 1)]).map Prod.snd
        = (List.range (st.1 ++ [(name, st.2 + 1)]).length).map (fun i => Int.ofNat i + 1)
    rw [List.map_append, h2, List.length_append, List.length_singleton,
      List.range_succ, List.map_append]
    congr 1
    show [st.2 + 1] = [Int.ofNat st.1.length + 1]
    rw [h1]
    rfl
  · show ((st.1 ++ [(name, st.2 + 1)]).map (fun e => strLower e.1)).Nodup
    rw [List.map_append, List.nodup_append]
    refine ⟨h3, List.nodup_singleton _, ?_⟩
    intro a ha hb
    rw [List.map_singleton, List.mem_singleton] at hb
    subst hb
    obtain ⟨e, he, hev⟩ := List.mem_map.mp ha
    exact hno e he hev

theorem foldl_preserves {σ α : Type} (P : σ → Prop) (f : σ → α → σ)
    (hf : ∀ s a, P s → P (f s a)) :
    ∀ (l : List α) (s : σ), P s → P (l.foldl f s) := by
  intro l
  induction l with
  | nil => exact fun s hs => hs
  | cons a l ih => exact fun s hs => ih _ (hf s a hs)

theorem strict_process_line_inv (st : List (String × Int) × Int) (line : String)
    (h : StInv st) : StInv (strict_process_line st line) := by
  rw [strict_process_line]
  split
  · exact h
  · split
    · exact h
    · split
      · exact h
      · split
        · split
          · exact h
          · next hnot => exact StInv_append h _ hnot
        · exact h

theorem aggr_scan_inv : ∀ (names : List String) (st : List (String × Int) × Int),
    StInv st → StInv (aggr_scan st names) := by
  intro names
  induction names with
  | nil => exact fun st h => h
  | cons name rest ih =>
    intro st h
    rw [aggr_scan]
    split
    · exact ih st h
    · split
      · exact ih st h
      · split
        · exact ih st h
        · next hnot => exact StInv_append h _ hnot

theorem aggr_process_line_inv (st : List (String × Int) × Int) (line : String)
    (h : StInv st) : StInv (aggr_process_line st line) := by
  rw [aggr_process_line]
  split
  · exact h
  · exact aggr_scan_inv _ st h

theorem mergeEntry_inv (acc : List (String × Int) × Int) (e : String × Int)
    (h : StInv acc) : StInv (mergeEntry acc e) := by
  rw [mergeEntry]
  split
  · exact h
  · next hnot => exact StInv_append h _ hnot

theorem parse_results_inv (text : String) :
    (parse_results text).map Prod.snd
      = (List.range (parse_results text).length).map (fun i => Int.ofNat i + 1) ∧
    ((parse_results text).map (fun e => strLower e.1)).Nodup := by
  have hstrict : StInv ((clean_lines text).foldl strict_process_line ([], 0)) :=
    foldl_preserves StInv strict_process_line strict_process_line_inv _ _ StInv_nil
  have haggr : StInv ((clean_lines text).foldl aggr_process_line ([], 0)) :=
    foldl_preserves StInv aggr_process_line aggr_process_line_inv _ _ StInv_nil
  rw [parse_results]
  split
  · exact ⟨haggr.2.1, haggr.2.2⟩
  · exact ⟨hstrict.2.1, hstrict.2.2⟩

/-- C4: every ranking the parser returns, and every merge of rankings
that satisfy the invariant, satisfies the Ranking invariant. -/
theorem parser_merger_invariant :
    (∀ text d, parse_marbles_screenshot text = some d → RankingInv d) ∧
    (∀ first rest, (∀ x ∈ first :: rest, RankingInv x) →
      RankingInv (merge_screenshot_data (first :: rest))) := by
  constructor
  · intro text d h
    unfold parse_marbles_screenshot at h
    split at h
    · exact absurd h (by simp)
    · injection h with h
      subst h
      exact ⟨rfl, (parse_results_inv text).1, (parse_results_inv text).2⟩
  · intro first rest hall
    cases rest with
    | nil => exact hall first (List.mem_cons_self _ _)
    | cons r rs =>
      have hfirst := hall first (List.mem_cons_self _ _)
      have hinit : StInv (first.results, (first.results.length : Int)) :=
        ⟨rfl, hfirst.2.1, hfirst.2.2⟩
      have hfold : StInv ((r :: rs).foldl (fun acc pd => pd.results.foldl mergeEntry acc)
          (first.results, (first.results.length : Int))) :=
        foldl_preserves StInv _
          (fun s pd hs => foldl_preserves StInv mergeEntry mergeEntry_inv pd.results s hs)
          _ _ hinit
      exact ⟨rfl, hfold.2.1, hfold.2.2⟩

/-- Witness for C4: a concrete parsed ranking and a concrete merge both
satisfy the invariant. -/
theorem parser_merger_invariant_witness :
    RankingInv (⟨3, [("alice", 1), ("bobby", 2), ("carol", 3)]⟩ : ParsedData) ∧
    RankingInv (merge_screenshot_data [rAliceBob, rBobCarol]) :=
  ⟨parser_merger_invariant.1 "alice\nbobby\ncarol" _ (by decide),
   parser_merger_invariant.2 rAliceBob [rBobCarol] (by decide)⟩

/-! ## Merge behavior lemmas -/

theorem foldl_mergeEntry_append : ∀ (L : List (String × Int)) (acc : List (String × Int) × Int),
    ∃ t, (L.foldl mergeEntry acc).1 = acc.1 ++ t := by
  intro L
  induction L with
  | nil => exact fun acc => ⟨[], (List.append_nil _).symm⟩
  | cons e L ih =>
    intro acc
    rw [List.foldl_cons]
    obtain ⟨t, ht⟩ := ih (mergeEntry acc e)
    have hu : ∃ u, (mergeEntry acc e).1 = acc.1 ++ u := by
      rw [mergeEntry]
      split
      · exact ⟨[], (List.append_nil _).symm⟩
      · exact ⟨[(e.1, acc.2 + 1)], rfl⟩
    obtain ⟨u, hu⟩ := hu
    exact ⟨u ++ t, by rw [ht, hu, List.append_assoc]⟩

theorem merge_fold_append : ∀ (rest : List ParsedData) (acc : List (String × Int) × Int),
    ∃ t, (rest.foldl (fun acc pd => pd.results.foldl mergeEntry acc) acc).1 = acc.1 ++ t := by
  intro rest
  induction rest with
  | nil => exact fun acc => ⟨[], (List.append_nil _).symm⟩
  | cons pd rest ih =>
    intro acc
    rw [List.foldl_cons]
    obtain ⟨t, ht⟩ := ih (pd.results.foldl mergeEntry acc)
    obtain ⟨u, hu⟩ := foldl_mergeEntry_append pd.results acc
    exact ⟨u ++ t, by rw [ht, hu, List.append_assoc]⟩

/-- C3: a single ranking is returned unchanged; one merge step skips an
entry exactly when its name already occurs case-insensitively and
otherwise appends it at the next position; the merged list always starts
with the first ranking's entries verbatim; and the concrete example
merges to [("alice",1),("bob",2),("carol",3)] with 3 players. -/
theorem merge_behavior :
    (∀ r, merge_screenshot_data [r] = r) ∧
    (∀ merged maxPos (e : String × Int),
      ((∃ m ∈ merged, strLower m.1 = strLower e.1) →
        mergeEntry (merged, maxPos) e = (merged, maxPos)) ∧
      ((∀ m ∈ merged, strLower m.1 ≠ strLower e.1) →
        mergeEntry (merged, maxPos) e = (merged ++ [(e.1, maxPos + 1)], maxPos + 1))) ∧
    (∀ first r rs, ∃ tail,
      (merge_screenshot_data (first :: r :: rs)).results = first.results ++ tail) ∧
    merge_screenshot_data [rAliceBob, rBobCarol]
      = ⟨3, [("alice", 1), ("bob", 2), ("carol", 3)]⟩ := by
  refine ⟨fun r => rfl, ?_, ?_, by decide⟩
  · intro merged maxPos e
    constructor
    · rintro ⟨m, hm, hml⟩
      rw [mergeEntry, if_pos]
      exact List.any_eq_true.mpr ⟨m, hm, beq_iff_eq.mpr hml⟩
    · intro hall
      rw [mergeEntry, if_neg]
      intro hany
      obtain ⟨m, hm, hml⟩ := List.any_eq_true.mp hany
      exact hall m hm (beq_iff_eq.mp hml)
  · intro first r rs
    obtain ⟨t, ht⟩ := merge_fold_append (r :: rs) (first.results, (first.results.length : Int))
    exact ⟨t, ht⟩

/-- Witness for C3 at concrete rankings. -/
theorem merge_behavior_witness :
    merge_screenshot_data [rAliceOnly] = rAliceOnly ∧
    (∀ m ∈ rAliceBob.results, strLower m.1 ≠ strLower ("carol", (1 : Int)).1) ∧
    mergeEntry (rAliceBob.results, 2) ("carol", 1)
      = (rAliceBob.results ++ [("carol", 3)], 3) ∧
    (∃ tail, (merge_screenshot_data [rAliceBob, rBobCarol]).results
      = rAliceBob.results ++ tail) :=
  ⟨merge_behavior.1 rAliceOnly, by decide,
   (merge_behavior.2.1 rAliceBob.results 2 ("carol", 1)).2 (by decide),
   merge_behavior.2.2.1 rAliceBob rBobCarol []⟩
